import Mathlib

/-!
Verification development for the FFT-Music-Visualizer-In-Terminal repository.

The model embeds `src/hachingRewrite.c` and `src/hachingRewriteNoLibrary.c`.
C `size_t`/`int` index arithmetic is embedded as `Nat` (the quantities in all
claims are non-negative and far from overflow), C `double` arithmetic inside
the spectral engine is embedded as exact real arithmetic over `ℝ`/`ℂ` (the
macro constant `PI` is idealized to `Real.pi`), and the single- versus
double-precision distinction relevant to the numerical-policy claim is
embedded separately by exact rational round-to-nearest-even rounding at 24
and 53 significand bits.
-/

namespace Haching

/-! ### Hop segmentation (src/hachingRewrite.c, main, lines 207-217)

The hop loop is `for (int i = 0; i + hopsize <= num_samples / 2; i += hopsize)`.
`hopLoopAux` embeds this loop over the mono sample count `n`, collecting the
successive values of `i` (the hop window start offsets).  The fuel argument
`n + 1` strictly bounds the number of iterations for any positive `hopsize`. -/

def hopLoopAux (n h : ℕ) : ℕ → ℕ → List ℕ
  | 0, _ => []
  | fuel + 1, i => if i + h ≤ n then i :: hopLoopAux n h fuel (i + h) else []

/-- Start offsets of the hop windows taken over `n` mono samples with hop size `h`. -/
def hopStarts (n h : ℕ) : List ℕ :=
  hopLoopAux n h (n + 1) 0

/-! ### Channel extraction (src/hachingRewrite.c, main, lines 156-168)

The source allocates `num_samples / 2` doubles and copies
`leftChanelSamples[i] = audio_data.samples[i * 2]`; the divisor and the
stride are the literal constant `2`, not the decoded channel count. -/

/-- Left-channel extraction exactly as in the source: length `⌊count/2⌋`,
element `i` taken from interleaved position `i * 2`. -/
def leftChannelSamples (samples : List ℤ) : List ℤ :=
  (List.range (samples.length / 2)).map (fun i => samples.getD (i * 2) 0)

/-- Interleaving of two channels `[L0, R0, L1, R1, ...]`, used to state the
2-channel extraction property. -/
def interleave : List ℤ → List ℤ → List ℤ
  | a :: as, b :: bs => a :: b :: interleave as bs
  | _, _ => []

/-! ### PCM buffer builder (src/hachingRewrite.c, extract_mp3_samples, lines 84-124)

State of the growable sample buffer: the capacity variable and the sequence of
samples stored so far (`total_samples` is `data.length`).  One decoded block is
appended per loop iteration; the capacity is doubled (once) when the
post-append count would exceed it, and then the block is copied to positions
`total_samples .. total_samples + block.length - 1`. -/

structure BufState where
  cap : ℕ
  data : List ℤ

/-- Initial capacity `rate * channels * 2` (line 85). -/
def initCap (rate channels : ℕ) : ℕ :=
  rate * channels * 2

/-- One iteration of the decode loop body (lines 97-122). -/
def appendBlock (s : BufState) (block : List ℤ) : BufState :=
  { cap := if s.data.length + block.length > s.cap then s.cap * 2 else s.cap
    data := s.data ++ block }

/-- The whole decode loop over a sequence of decoded blocks. -/
def appendBlocks (s : BufState) (blocks : List (List ℤ)) : BufState :=
  blocks.foldl appendBlock s

/-! ### Flat magnitude writes (src/hachingRewrite.c, main, lines 207-216)

For the hop starting at offset `i`, the inner loop writes
`freqArr[i + j]` for `j = 0 .. hopsize/2`; `freqArr` holds
`num_samples / 2` doubles (line 186), i.e. one per mono sample. -/

/-- Indices of `freqArr` written while processing the hop starting at `i`. -/
def writeIndicesOfHop (h i : ℕ) : List ℕ :=
  (List.range (h / 2 + 1)).map (fun j => i + j)

/-- All indices of `freqArr` written by the whole hop loop, in write order. -/
def writeIndices (n h : ℕ) : List ℕ :=
  (hopStarts n h).flatMap (writeIndicesOfHop h)

/-! ### Spectral engine (src/hachingRewriteNoLibrary.c, lines 20-70)

C `double` arithmetic is embedded as exact real arithmetic and the macro
constant `PI` (the printable approximation `3.1415926535` of π) is idealized
to `Real.pi`; the finite-precision aspects are treated separately by the
rational rounding model further below. -/

noncomputable section

/-- Complex value from polar data, embedding `fromAngle` (line 38); the C
`float` parameters are idealized to exact reals here. -/
def fromAngle (amplitude angle : ℝ) : ℂ :=
  ⟨amplitude * Real.cos angle, amplitude * Real.sin angle⟩

/-- Componentwise complex product, embedding `mul` (lines 32-34). -/
def cmul (a b : ℂ) : ℂ :=
  ⟨a.re * b.re - a.im * b.im, a.re * b.im + a.im * b.re⟩

/-- Complex magnitude, embedding `getLength` (line 36). -/
def getLength (a : ℂ) : ℝ :=
  Real.sqrt (a.re * a.re + a.im * a.im)

/-- The `{z.re, -z.im}` pattern of line 68 (complex conjugation). -/
def conjC (z : ℂ) : ℂ :=
  ⟨z.re, -z.im⟩

/-- `nextPowerOfTwo` (line 42): `pow(2, ceil(log2(n)))`, idealized over ℕ. -/
def nextPowerOfTwo (n : ℕ) : ℕ :=
  2 ^ Nat.clog 2 n

/-- The chirp sequence of `bluesteinFFT` (lines 50-53): angle `(-PI*k*k)/bufflen`. -/
def chirpSeq (N k : ℕ) : ℂ :=
  fromAngle 1 ((-(Real.pi * k * k)) / N)

/-- The convolution length `m = nextPowerOfTwo(bufflen * 2 - 1)` (line 54). -/
def convLen (N : ℕ) : ℕ :=
  nextPowerOfTwo (N * 2 - 1)

/-- The sequence `A` (lines 57-66): `A[k] = mul(buff[k], chirp[k])` for
`k < bufflen`, and zero (from `memset`) on the rest of the length-`m` array. -/
def Aseq (x : ℕ → ℂ) (N : ℕ) (k : ℕ) : ℂ :=
  if k < N then cmul (x k) (chirpSeq N k) else 0

/-- The array `B` after `memset` and the first fill loop (lines 60, 63-66):
`B[k] = fromAngle(1, (PI*k*k)/bufflen)` for `k < bufflen`, zero elsewhere. -/
def Bfill (N : ℕ) : ℕ → ℂ :=
  fun j => if j < N then fromAngle 1 ((Real.pi * j * j) / N) else 0

/-- The array `B` after the mirror loop
`for (k = 1; k < bufflen; k++) B[m-k] = {B[k].re, -B[k].im}` (lines 67-69),
embedded as a left fold of pointwise updates over `k = 1, ..., bufflen-1`. -/
def Bseq (N M : ℕ) : ℕ → ℂ :=
  (List.range' 1 (N - 1)).foldl (fun g k => Function.update g (M - k) (conjC (g k))) (Bfill N)

/-- Modelled from the spec: the forward DFT computed by the power-of-two path
(the external FFTW `r2c`/`dft` plan in `hachingRewrite.c`, described by the
spec as a standard forward DFT); FFTW itself is an external library whose
code is not part of this repository. -/
def dft (N : ℕ) (x : ℕ → ℂ) (k : ℕ) : ℂ :=
  ∑ n ∈ Finset.range N, x n * Complex.exp (((-(2 * Real.pi * n * k / N) : ℝ) : ℂ) * Complex.I)

/-- The magnitudes written for one hop window (src/hachingRewrite.c, lines
214-216): `sqrt(out[j][0]² + out[j][1]²)` for `j = 0 .. hopsize/2`, where
`out` is the forward transform of the window. -/
def hopMagnitudes (h : ℕ) (w : ℕ → ℝ) : List ℝ :=
  (List.range (h / 2 + 1)).map (fun j =>
    Real.sqrt ((dft h (fun n => (w n : ℂ)) j).re * (dft h (fun n => (w n : ℂ)) j).re +
      (dft h (fun n => (w n : ℂ)) j).im * (dft h (fun n => (w n : ℂ)) j).im))

/-- The elementary oscillation `e^{2πicj/M}`, used to relate the forward and
inverse transforms to the circular convolution. -/
def eTerm (M : ℕ) (c : ℤ) (j : ℕ) : ℂ :=
  Complex.exp (((2 * Real.pi * c * j / M : ℝ) : ℂ) * Complex.I)

/-- Modelled from the spec: the inverse FFT used in step 4 of the Bluestein
completion, `InverseFFT(v)[k] = M⁻¹ Σⱼ v[j] e^{+2πijk/M}`. -/
def idft (M : ℕ) (v : ℕ → ℂ) (k : ℕ) : ℂ :=
  (M : ℂ)⁻¹ * ∑ j ∈ Finset.range M, v j * Complex.exp (((2 * Real.pi * j * k / M : ℝ) : ℂ) * Complex.I)

/-- Modelled from the spec: step 4 of the intended Bluestein completion,
`C = InverseFFT(FFT(A) ⊙ FFT(B))` — this step is absent from the source
(`bluesteinFFT` stops after filling `A` and `B`). -/
def convSeq (N : ℕ) (x : ℕ → ℂ) (k : ℕ) : ℂ :=
  idft (convLen N)
    (fun j => dft (convLen N) (Aseq x N) j * dft (convLen N) (Bseq N (convLen N)) j) k

/-- Length-`M` circular convolution, the value the spec ascribes to step 4
(`C = InverseFFT(FFT(A) ⊙ FFT(B)), a length-M circular convolution`). -/
def circConv (M : ℕ) (A B : ℕ → ℂ) (k : ℕ) : ℂ :=
  ∑ j ∈ Finset.range M, A j * B (((k : ℤ) - (j : ℤ)) % (M : ℤ)).toNat

/-- Modelled from the spec: step 5 of the intended Bluestein completion,
`X[k] = C[k]·chirp[k]` — also absent from the source. -/
def bluesteinX (N : ℕ) (x : ℕ → ℂ) (k : ℕ) : ℂ :=
  cmul (convSeq N x k) (chirpSeq N k)

/-- Magnitude spectrum of the (spec-completed) Bluestein path. -/
def bluesteinMag (N : ℕ) (x : ℕ → ℂ) (k : ℕ) : ℝ :=
  getLength (bluesteinX N x k)

/-- Magnitude spectrum of the power-of-two path. -/
def dftMag (N : ℕ) (x : ℕ → ℂ) (k : ℕ) : ℝ :=
  getLength (dft N x k)

/-! ### Post-decode behavior of `main` (src/hachingRewrite.c, lines 151-239) -/

/-- Lines printed by `main` after a successful decode. -/
inductive OutEvent
  | extractedCount (n : ℕ)
  | durationSecs (q : ℚ)
  | loopSecs (q : ℚ)

/-- Observable result of `main` after a successful decode. -/
structure MainResult where
  events : List OutEvent
  hops : List ℕ
  freq : ℕ → Option ℝ
  exitCode : ℕ

/-- Contents of `freqArr` after the hop loop: every hop start `i` writes
`sqrt(out[j][0]²+out[j][1]²)` of its window's transform at index `i + j` for
`j = 0 .. hopsize/2`; entries never written keep no defined value (`none`,
the array is allocated uninitialized). -/
def freqFinal (n h : ℕ) (mono : ℕ → ℝ) : ℕ → Option ℝ :=
  (hopStarts n h).foldl
    (fun arr i =>
      (List.range (h / 2 + 1)).foldl
        (fun a j =>
          Function.update a (i + j) (some ((hopMagnitudes h (fun t => mono (i + t))).getD j 0)))
        arr)
    (fun _ => none)

/-- Post-decode tail of `main` (lines 151-238): prints the extracted count and
the duration `num_samples / channels / sample_rate`, extracts the mono channel
with stride 2, runs the hop loop, prints the elapsed loop time (an input of
the model) and returns 0.  Allocation and clock failures (which exit non-zero)
are modelled as succeeding; printing is modelled as the list of printed
values. -/
def mainAfterDecode (numSamples rate channels h : ℕ) (samples : ℕ → ℝ) (elapsed : ℚ) :
    MainResult :=
  { events := [OutEvent.extractedCount numSamples,
      OutEvent.durationSecs ((numSamples : ℚ) / channels / rate),
      OutEvent.loopSecs elapsed]
    hops := hopStarts (numSamples / 2) h
    freq := freqFinal (numSamples / 2) h (fun i => samples (i * 2))
    exitCode := 0 }

end

/-! ### Finite-precision model of the chirp phase
(src/hachingRewriteNoLibrary.c, lines 38-40 and 50-53)

The numerical-policy claim concerns machine precision, so this part of the
model tracks precision exactly: a non-negative rational is rounded to a binary
floating-point value with `p` significand bits by round-to-nearest, ties to
even — the IEEE-754 rule C uses for `double` (p = 53) and `float` (p = 24)
operations and conversions.  Values are numerator/denominator pairs of
naturals; the quantities involved are far inside the normal range of both
formats, so exponent overflow/subnormal handling is irrelevant and omitted.
Line 51 computes `float phase = (-PI * k * k) / bufflen;`: the products and
the division are performed in `double` (each result rounded to 53 bits; the
`int` operands convert to `double` exactly), and the assignment to the `float`
variable rounds the result once more to 24 bits.  The model follows the
non-negative magnitude of that value: C negation is exact and
round-to-nearest-even is symmetric, so the sign carries no precision. -/

/-- Round a non-negative integer ratio `num/den` to the nearest integer, ties
to even. -/
def rhe (num den : ℕ) : ℕ :=
  let q := num / den
  let r := num % den
  if 2 * r < den then q
  else if den < 2 * r then q + 1
  else if q % 2 = 0 then q else q + 1

/-- Binary normalization: scale the positive ratio `(n, d)` by powers of two
(tracking the exponent `e`) until `d ≤ n < 2*d`, i.e. the value lies in `[1, 2)`. -/
def norm2 : ℕ → (ℕ × ℕ) → ℤ → (ℕ × ℕ) × ℤ
  | 0, v, e => (v, e)
  | fuel + 1, (n, d), e =>
    if n < d then norm2 fuel (2 * n, d) (e - 1)
    else if 2 * d ≤ n then norm2 fuel (n, 2 * d) (e + 1)
    else ((n, d), e)

/-- Round the positive rational `v.1 / v.2` to `p` significand bits,
round-to-nearest with ties to even, returning the result as a pair. -/
def rndPos (p : ℕ) (v : ℕ × ℕ) : ℕ × ℕ :=
  let w := norm2 300 v 0
  let m := rhe (w.1.1 * 2 ^ (p - 1)) w.1.2
  let s : ℤ := w.2 - (p - 1)
  if 0 ≤ s then (m * 2 ^ s.toNat, 1) else (m, 2 ^ (-s).toNat)

/-- The rational value of a pair. -/
def pairVal (v : ℕ × ℕ) : ℚ :=
  (v.1 : ℚ) / (v.2 : ℚ)

/-- The `PI` macro (line 10): the decimal literal `3.1415926535`, rounded by
the compiler to the nearest `double`. -/
def PIpair : ℕ × ℕ :=
  rndPos 53 (31415926535, 10000000000)

/-- Magnitude of the chirp phase expression `(-PI * k * k) / bufflen` of line
51 as evaluated in `double`: `(PI * k) * k` then `/ bufflen`, each operation
rounded to 53 bits. -/
def phaseAbsDouble (N k : ℕ) : ℕ × ℕ :=
  let t1 := rndPos 53 (PIpair.1 * k, PIpair.2)
  let t2 := rndPos 53 (t1.1 * k, t1.2)
  rndPos 53 (t2.1, t2.2 * N)

/-- Magnitude of the value actually stored in the C `float phase` variable of
line 51: the double-precision value of the expression, rounded once more to
single precision by the assignment. -/
def phaseAbsFloat (N k : ℕ) : ℕ × ℕ :=
  rndPos 24 (phaseAbsDouble N k)

end Haching

namespace Haching

/-! ### Basic lemmas about the hop loop -/

theorem hopLoopAux_eq (n h : ℕ) (hp : 0 < h) :
    ∀ (fuel i : ℕ), n - i < fuel * h →
      hopLoopAux n h fuel i = (List.range ((n - i) / h)).map (fun k => i + k * h) := by
  intro fuel
  induction fuel with
  | zero =>
    intro i hi
    have h0 : n - i = 0 := by omega
    simp [hopLoopAux, h0]
  | succ fuel ih =>
    intro i hi
    by_cases hcase : i + h ≤ n
    · have hsub : h ≤ n - i := by omega
      have hdiv : (n - i) / h = (n - (i + h)) / h + 1 := by
        have : n - i = (n - (i + h)) + h := by omega
        rw [this, Nat.add_div_right _ hp]
      have hfuel : n - (i + h) < fuel * h := by
        have : n - i < fuel * h + h := by
          simpa [Nat.succ_mul] using hi
        omega
      rw [hopLoopAux, if_pos hcase, ih (i + h) hfuel, hdiv]
      rw [List.range_succ_eq_map]
      simp only [List.map_cons, List.map_map]
      congr 1
      · simp
      · apply List.map_congr_left
        intro k _
        simp only [Function.comp_apply, Nat.succ_eq_add_one]
        ring
    · have h0 : (n - i) / h = 0 := by
        apply Nat.div_eq_of_lt
        omega
      rw [hopLoopAux, if_neg hcase, h0]
      simp

theorem hopStarts_eq (n h : ℕ) (hp : 0 < h) :
    hopStarts n h = (List.range (n / h)).map (fun k => k * h) := by
  have hfuel : n - 0 < (n + 1) * h := by
    have : n + 1 ≤ (n + 1) * h := Nat.le_mul_of_pos_right _ hp
    omega
  rw [hopStarts, hopLoopAux_eq n h hp (n + 1) 0 hfuel]
  simp

theorem mem_hopStarts (n h i : ℕ) (hp : 0 < h) (hi : i ∈ hopStarts n h) :
    ∃ k, i = k * h ∧ i + h ≤ n := by
  rw [hopStarts_eq n h hp] at hi
  simp only [List.mem_map, List.mem_range] at hi
  obtain ⟨k, hk, rfl⟩ := hi
  refine ⟨k, rfl, ?_⟩
  have h1 : k + 1 ≤ n / h := hk
  have h2 : (k + 1) * h ≤ (n / h) * h := Nat.mul_le_mul_right _ h1
  have h3 : (n / h) * h ≤ n := Nat.div_mul_le_self n h
  calc k * h + h = (k + 1) * h := by ring
    _ ≤ (n / h) * h := h2
    _ ≤ n := h3

/-- C1: for every mono sample count `n` and positive hop size `h`, the hop loop
produces exactly the window starts `0, h, 2h, ...` in order — one window
`[k*h, k*h + h)` for each `k < n / h` — so the windows are sequential,
non-overlapping, entirely inside the sample range (never zero-padded), and the
loop stops as soon as fewer than `h` samples remain, dropping the remainder;
in particular 10 mono samples with `h = 3` yield the 3 hops starting at
`0, 3, 6`, dropping the final sample. -/
theorem c1_hop_segmentation :
    (∀ n h : ℕ, 0 < h →
      hopStarts n h = (List.range (n / h)).map (fun k => k * h) ∧
      (n / h) * h ≤ n ∧
      n - (n / h) * h < h) ∧
    hopStarts 10 3 = [0, 3, 6] := by
  constructor
  · intro n h hp
    refine ⟨hopStarts_eq n h hp, Nat.div_mul_le_self n h, ?_⟩
    have hmod : n % h < h := Nat.mod_lt n hp
    have heq : n / h * h + n % h = n := Nat.div_add_mod' n h
    omega
  · decide

/-- Witness for C1 at the concrete instance of the claim: `n = 10`, `h = 3`. -/
theorem c1_hop_segmentation_witness :
    (0 < 3) ∧ hopStarts 10 3 = (List.range (10 / 3)).map (fun k => k * 3) :=
  ⟨by decide, (c1_hop_segmentation.1 10 3 (by decide)).1⟩

/-- C4 counterexample: on a 1-channel buffer holding the 3 samples `[5, 6, 7]`,
the claim predicts a mono sequence of length `3 / 1 = 3` whose `i`-th element
sits at interleaved position `i * 1`; the source's extraction instead divides
and strides by the literal `2` and returns `[5]`, of length `1`. -/
theorem c4_extraction_counterexample :
    leftChannelSamples [5, 6, 7] = [5] ∧
    ([5, 6, 7] : List ℤ).length / 1 = 3 ∧
    (leftChannelSamples [5, 6, 7]).length ≠ ([5, 6, 7] : List ℤ).length / 1 := by
  decide

theorem leftChannelSamples_cons₂ (a b : ℤ) (t : List ℤ) :
    leftChannelSamples (a :: b :: t) = a :: leftChannelSamples t := by
  unfold leftChannelSamples
  have hlen : (a :: b :: t).length / 2 = t.length / 2 + 1 := by
    simp only [List.length_cons]
    omega
  rw [hlen, List.range_succ_eq_map, List.map_cons, List.map_map]
  refine congrArg₂ List.cons rfl ?_
  apply List.map_congr_left
  intro k _
  show (a :: b :: t).getD (Nat.succ k * 2) 0 = t.getD (k * 2) 0
  have h2 : Nat.succ k * 2 = k * 2 + 1 + 1 := by omega
  rw [h2, List.getD_cons_succ, List.getD_cons_succ]

/-- C4 amended: the extraction is hardwired to a stride of 2 (the 2-channel
case): it returns `⌊count/2⌋` samples, the `i`-th taken from interleaved
position `i * 2`, for every buffer regardless of its channel count; on
2-channel samples `[L0, R0, L1, R1, ...]` this yields `[L0, L1, ...]` (with an
uneven final partial frame ignored), but for channel counts other than 2 the
length is not `⌊count/channels⌋`. -/
theorem c4_extraction_amended :
    (∀ samples : List ℤ,
      (leftChannelSamples samples).length = samples.length / 2 ∧
      ∀ i < samples.length / 2,
        (leftChannelSamples samples).getD i 0 = samples.getD (i * 2) 0) ∧
    (∀ L R : List ℤ, L.length = R.length → leftChannelSamples (interleave L R) = L) := by
  constructor
  · intro samples
    constructor
    · simp [leftChannelSamples]
    · intro i hi
      simp [leftChannelSamples, List.getD_eq_getElem?_getD, List.getElem?_map,
        List.getElem?_range, hi]
  · intro L
    induction L with
    | nil =>
      intro R h
      cases R with
      | nil => rfl
      | cons b bs => simp at h
    | cons a as ih =>
      intro R h
      cases R with
      | nil => simp at h
      | cons b bs =>
        rw [interleave, leftChannelSamples_cons₂, ih bs (by simpa using h)]

/-- Witness for C4's amended claim on the 2-channel buffer `[5, 6, 7, 8]`. -/
theorem c4_extraction_amended_witness :
    ([5, 7] : List ℤ).length = ([6, 8] : List ℤ).length ∧
    leftChannelSamples (interleave [5, 7] [6, 8]) = [5, 7] :=
  ⟨by decide, c4_extraction_amended.2 [5, 7] [6, 8] (by decide)⟩

/-- C3 counterexample: with decoder parameters `rate = 1`, `channels = 2` the
initial capacity is `1 * 2 * 2 = 4`; appending a single block of 10 samples
doubles the capacity once, to 8, and then stores all 10 samples, so after the
append the stored count (10) exceeds the capacity (8). -/
theorem c3_buffer_counterexample :
    (appendBlocks ⟨initCap 1 2, []⟩ [List.replicate 10 0]).data.length = 10 ∧
    (appendBlocks ⟨initCap 1 2, []⟩ [List.replicate 10 0]).cap = 8 ∧
    ¬((appendBlocks ⟨initCap 1 2, []⟩ [List.replicate 10 0]).data.length ≤
        (appendBlocks ⟨initCap 1 2, []⟩ [List.replicate 10 0]).cap) := by
  decide

theorem appendBlock_spec (s : BufState) (b : List ℤ) (h1 : s.data.length ≤ s.cap)
    (hb : b.length ≤ s.cap) :
    (appendBlock s b).data = s.data ++ b ∧ s.cap ≤ (appendBlock s b).cap ∧
      (appendBlock s b).data.length ≤ (appendBlock s b).cap := by
  refine ⟨rfl, ?_, ?_⟩ <;>
    · simp only [appendBlock, List.length_append]
      split <;> omega

theorem appendBlocks_spec (blocks : List (List ℤ)) :
    ∀ s : BufState, s.data.length ≤ s.cap → (∀ b ∈ blocks, b.length ≤ s.cap) →
      (appendBlocks s blocks).data = s.data ++ blocks.flatten ∧
      s.cap ≤ (appendBlocks s blocks).cap ∧
      (appendBlocks s blocks).data.length ≤ (appendBlocks s blocks).cap := by
  induction blocks with
  | nil =>
    intro s h1 _
    refine ⟨by simp [appendBlocks], le_refl _, ?_⟩
    simpa [appendBlocks] using h1
  | cons b bs ih =>
    intro s h1 h2
    have hb : b.length ≤ s.cap := h2 b (List.mem_cons_self b bs)
    obtain ⟨hdata, hcap, hinv⟩ := appendBlock_spec s b h1 hb
    have h2' : ∀ b' ∈ bs, b'.length ≤ (appendBlock s b).cap := by
      intro b' hb'
      exact le_trans (h2 b' (List.mem_cons_of_mem _ hb')) hcap
    have heq : appendBlocks s (b :: bs) = appendBlocks (appendBlock s b) bs := rfl
    obtain ⟨hdata2, hcap2, hinv2⟩ := ih (appendBlock s b) hinv h2'
    refine ⟨?_, le_trans hcap hcap2, by rw [heq]; exact hinv2⟩
    rw [heq, hdata2, hdata, List.flatten_cons, List.append_assoc]

/-- C3 amended: provided every appended block is no longer than the buffer
capacity at the time of its append (for which `length ≤ initial capacity`
suffices, capacities never shrinking), the invariant `count ≤ capacity` holds
after every append — capacity being doubled whenever the post-append count
would exceed it — and all previously appended samples remain unchanged at
their original positions (the stored data after any prefix of the appends is
exactly the initial data followed by the blocks of that prefix, in order). -/
theorem c3_buffer_invariant_amended (s : BufState) (blocks p q : List (List ℤ))
    (hInv : s.data.length ≤ s.cap)
    (hB : ∀ b ∈ blocks, b.length ≤ s.cap)
    (hpq : blocks = p ++ q) :
    (appendBlocks s p).data.length ≤ (appendBlocks s p).cap ∧
    (appendBlocks s p).data = s.data ++ p.flatten := by
  have hBp : ∀ b ∈ p, b.length ≤ s.cap := by
    intro b hb
    exact hB b (by simp [hpq, hb])
  have h := appendBlocks_spec p s hInv hBp
  exact ⟨h.2.2, h.1⟩

/-- Witness for C3's amended claim: initial capacity 4, blocks `[[1,2],[3]]`,
checked after the first append. -/
theorem c3_buffer_invariant_amended_witness :
    (([] : List ℤ).length ≤ 4) ∧ (∀ b ∈ [[1, 2], [3]].map (List.map (Int.ofNat)), b.length ≤ 4) ∧
    ((appendBlocks ⟨4, []⟩ [[1, 2]]).data.length ≤ (appendBlocks ⟨4, []⟩ [[1, 2]]).cap ∧
      (appendBlocks ⟨4, []⟩ [[1, 2]]).data = ([] : List ℤ) ++ ([[1, 2]] : List (List ℤ)).flatten) := by
  refine ⟨by decide, by decide, ?_⟩
  exact c3_buffer_invariant_amended ⟨4, []⟩ [[1, 2], [3]] [[1, 2]] [[3]]
    (by decide) (by decide) rfl

/-- C5 counterexample: with `hopsize = 4` (for which `⌊4/2⌋ + 1 = 3 < 4`) over
8 mono samples there are two hops, starting at offsets 0 and 4; the earlier
hop writes flat indices `[0, 1, 2]` and the later hop writes `[4, 5, 6]`, so
no write of the later hop touches — let alone changes — any entry holding the
earlier hop's bins. -/
theorem c5_flat_writes_counterexample :
    hopStarts 8 4 = [0, 4] ∧
    writeIndicesOfHop 4 0 = [0, 1, 2] ∧
    writeIndicesOfHop 4 4 = [4, 5, 6] ∧
    4 / 2 + 1 < 4 ∧
    (∀ a ∈ writeIndicesOfHop 4 4, a ∉ writeIndicesOfHop 4 0) ∧
    (∀ a ∈ writeIndicesOfHop 4 0, a ∉ writeIndicesOfHop 4 4) := by
  decide

/-- C5 amended: the reference magnitude-writing scheme does alias all hops'
outputs into one flat array indexed by absolute sample offset (hop start `i`
receives bin `j` at index `i + j`), but the hops' write ranges are pairwise
disjoint — a later hop never overwrites an earlier hop's bins; instead,
whenever `⌊hopsize/2⌋ + 1 < hopsize`, the flat scheme leaves gaps: for each
hop start `i` the allocated entry at index `i + hopsize - 1` is never written
by any hop. -/
theorem c5_flat_writes_amended (n h : ℕ) (hp : 0 < h) :
    (∀ i1 ∈ hopStarts n h, ∀ i2 ∈ hopStarts n h, i1 ≠ i2 →
      ∀ a ∈ writeIndicesOfHop h i1, a ∉ writeIndicesOfHop h i2) ∧
    (h / 2 + 1 < h →
      ∀ i ∈ hopStarts n h, i + h - 1 < n ∧ i + h - 1 ∉ writeIndices n h) := by
  have hh2 : h / 2 < h := Nat.div_lt_self hp one_lt_two
  constructor
  · intro i1 hi1 i2 hi2 hne a ha1 ha2
    obtain ⟨k1, rfl, hk1⟩ := mem_hopStarts n h i1 hp hi1
    obtain ⟨k2, rfl, hk2⟩ := mem_hopStarts n h i2 hp hi2
    simp only [writeIndicesOfHop, List.mem_map, List.mem_range] at ha1 ha2
    obtain ⟨j1, hj1, rfl⟩ := ha1
    obtain ⟨j2, hj2, hj⟩ := ha2
    have hkne : k1 ≠ k2 := by
      intro hk
      exact hne (by rw [hk])
    rcases Nat.lt_or_ge k1 k2 with hlt | hge
    · have : k1 * h + h ≤ k2 * h := by
        calc k1 * h + h = (k1 + 1) * h := by ring
          _ ≤ k2 * h := Nat.mul_le_mul_right _ hlt
      omega
    · have hlt2 : k2 < k1 := lt_of_le_of_ne hge (Ne.symm hkne)
      have : k2 * h + h ≤ k1 * h := by
        calc k2 * h + h = (k2 + 1) * h := by ring
          _ ≤ k1 * h := Nat.mul_le_mul_right _ hlt2
      omega
  · intro hgap i hi
    obtain ⟨k, rfl, hk⟩ := mem_hopStarts n h i hp hi
    refine ⟨by omega, ?_⟩
    intro hmem
    simp only [writeIndices, List.mem_flatMap, writeIndicesOfHop, List.mem_map,
      List.mem_range] at hmem
    obtain ⟨i', hi', j, hj, hjeq⟩ := hmem
    obtain ⟨k', rfl, hk'⟩ := mem_hopStarts n h i' hp hi'
    rcases Nat.lt_or_ge k k' with hlt | hge
    · have : k * h + h ≤ k' * h := by
        calc k * h + h = (k + 1) * h := by ring
          _ ≤ k' * h := Nat.mul_le_mul_right _ hlt
      omega
    · have : k' * h ≤ k * h := Nat.mul_le_mul_right _ hge
      omega

/-- Witness for C5's amended claim at `n = 8`, `h = 4`, hop start 0. -/
theorem c5_flat_writes_amended_witness :
    (0 < 4) ∧ (4 / 2 + 1 < 4) ∧ (0 ∈ hopStarts 8 4) ∧
    (0 + 4 - 1 < 8 ∧ 0 + 4 - 1 ∉ writeIndices 8 4) :=
  ⟨by decide, by decide, by decide,
    (c5_flat_writes_amended 8 4 (by decide)).2 (by decide) 0 (by decide)⟩

/-- C9: every write of the hop loop into the flat `freqArr` (which holds
`⌊num_samples/2⌋` doubles, one per mono sample) stays inside the allocation:
each written index `i + j`, for a hop offset `i` with `i + hopsize ≤ n` and a
bin `j ≤ ⌊hopsize/2⌋`, is strictly less than the mono sample count `n`. -/
theorem c9_write_bounds (n h : ℕ) (hp : 0 < h) :
    (∀ idx ∈ writeIndices n h, idx < n) ∧
    (∀ i j : ℕ, i + h ≤ n → j ≤ h / 2 → i + j < n) := by
  have key : ∀ i j : ℕ, i + h ≤ n → j ≤ h / 2 → i + j < n := by
    intro i j hi hj
    have : h / 2 < h := Nat.div_lt_self hp one_lt_two
    omega
  constructor
  · intro idx hidx
    simp only [writeIndices, List.mem_flatMap, writeIndicesOfHop, List.mem_map,
      List.mem_range] at hidx
    obtain ⟨i, hi, j, hj, rfl⟩ := hidx
    obtain ⟨k, -, hk⟩ := mem_hopStarts n h i hp hi
    exact key i j hk (by omega)
  · exact key

/-- Witness for C9 at `n = 10`, `h = 4`, written index 0. -/
theorem c9_write_bounds_witness :
    (0 < 4) ∧ (0 ∈ writeIndices 10 4) ∧ 0 < 10 :=
  ⟨by decide, by decide, (c9_write_bounds 10 4 (by decide)).1 0 (by decide)⟩

/-! ### Bridge lemmas for the complex embedding -/

theorem fromAngle_one_eq_exp (θ : ℝ) :
    fromAngle 1 θ = Complex.exp ((θ : ℂ) * Complex.I) := by
  rw [Complex.exp_mul_I]
  apply Complex.ext <;>
    simp [fromAngle, Complex.cos_ofReal_re, Complex.sin_ofReal_re]

theorem cmul_eq (a b : ℂ) : cmul a b = a * b := by
  apply Complex.ext <;> simp [cmul, Complex.mul_re, Complex.mul_im]

theorem getLength_abs (z : ℂ) :
    Real.sqrt (z.re * z.re + z.im * z.im) = Complex.abs z := by
  rw [Complex.abs_apply, Complex.normSq_apply]

theorem getLength_eq_abs (z : ℂ) : getLength z = Complex.abs z :=
  getLength_abs z

theorem conjC_eq_conj (z : ℂ) : conjC z = (starRingEnd ℂ) z := by
  apply Complex.ext <;> simp [conjC]

theorem chirpSeq_eq_exp (N k : ℕ) :
    chirpSeq N k = Complex.exp ((((-(Real.pi * (k : ℝ) ^ 2 / N)) : ℝ) : ℂ) * Complex.I) := by
  have hangle : (-(Real.pi * (k : ℝ) * k)) / N = -(Real.pi * (k : ℝ) ^ 2 / N) := by
    ring
  rw [chirpSeq, hangle, fromAngle_one_eq_exp]

/-! ### Characterization of the mirrored chirp array `B` -/

theorem mem_range'_iff (k n : ℕ) : k ∈ List.range' 1 n ↔ 1 ≤ k ∧ k < 1 + n := by
  rw [List.mem_range']
  constructor
  · rintro ⟨i, hi, rfl⟩
    omega
  · intro h
    exact ⟨k - 1, by omega, by omega⟩

theorem Bseq_fold_char (N M : ℕ) (hN : 0 < N) (hM : 2 * N - 1 ≤ M) :
    ∀ (ks : List ℕ) (g : ℕ → ℂ), (∀ k ∈ ks, 1 ≤ k ∧ k < N) →
      (∀ j, j < N → g j = Bfill N j) →
      ∀ j, (ks.foldl (fun g k => Function.update g (M - k) (conjC (g k))) g) j =
        if ∃ k ∈ ks, j = M - k then conjC (Bfill N (M - j)) else g j := by
  intro ks
  induction ks with
  | nil =>
    intro g _ _ j
    simp
  | cons k₀ ks ih =>
    intro g hks hread j
    have hk₀ : 1 ≤ k₀ ∧ k₀ < N := hks k₀ (List.mem_cons_self _ _)
    have hMk₀ : N ≤ M - k₀ := by omega
    have hk₀M : k₀ ≤ M := by omega
    have hg' : ∀ j, j < N → Function.update g (M - k₀) (conjC (g k₀)) j = Bfill N j := by
      intro j hj
      rw [Function.update_noteq (by omega)]
      exact hread j hj
    have hrec := ih (Function.update g (M - k₀) (conjC (g k₀)))
      (fun k hk => hks k (List.mem_cons_of_mem _ hk)) hg' j
    rw [List.foldl_cons, hrec]
    by_cases hin : ∃ k ∈ ks, j = M - k
    · rw [if_pos hin,
        if_pos ⟨hin.choose, List.mem_cons_of_mem _ hin.choose_spec.1, hin.choose_spec.2⟩]
    · rw [if_neg hin]
      by_cases hj0 : j = M - k₀
      · subst hj0
        rw [Function.update_same]
        have hMk : M - (M - k₀) = k₀ := by omega
        rw [if_pos ⟨k₀, List.mem_cons_self _ _, rfl⟩, hMk, hread k₀ hk₀.2]
      · rw [Function.update_noteq hj0, if_neg]
        intro hx
        obtain ⟨k, hk, hjk⟩ := hx
        rcases List.mem_cons.mp hk with rfl | hk'
        · exact hj0 hjk
        · exact hin ⟨k, hk', hjk⟩

theorem Bseq_eq (N M : ℕ) (hN : 0 < N) (hM : 2 * N - 1 ≤ M) (j : ℕ) :
    Bseq N M j =
      if j < N then Bfill N j
      else if M - N < j ∧ j < M then conjC (Bfill N (M - j)) else 0 := by
  have hmem : ∀ k ∈ List.range' 1 (N - 1), 1 ≤ k ∧ k < N := by
    intro k hk
    rw [mem_range'_iff] at hk
    omega
  have h := Bseq_fold_char N M hN hM (List.range' 1 (N - 1)) (Bfill N) hmem
    (fun _ _ => rfl) j
  rw [Bseq, h]
  by_cases hjN : j < N
  · rw [if_pos hjN, if_neg]
    intro hx
    obtain ⟨k, hk, rfl⟩ := hx
    have := hmem k hk
    omega
  · rw [if_neg hjN]
    by_cases hmid : M - N < j ∧ j < M
    · rw [if_pos hmid, if_pos]
      refine ⟨M - j, ?_, by omega⟩
      rw [mem_range'_iff]
      omega
    · rw [if_neg hmid, if_neg]
      · rw [Bfill, if_neg (by omega)]
      · intro hx
        obtain ⟨k, hk, rfl⟩ := hx
        have := hmem k hk
        omega

theorem Bfill_eq_conj_chirp (N k : ℕ) (hk : k < N) :
    Bfill N k = conjC (chirpSeq N k) := by
  apply Complex.ext <;>
    simp [Bfill, hk, chirpSeq, conjC, fromAngle, neg_div, Real.cos_neg, Real.sin_neg]

theorem convLen_ge (N : ℕ) : 2 * N - 1 ≤ convLen N := by
  have h := Nat.le_pow_clog one_lt_two (N * 2 - 1)
  rw [convLen, nextPowerOfTwo]
  omega

/-- C2: for every complex input of length `N > 0`, the Bluestein setup computes
`chirp[k] = exp(-iπk²/N)` for `k < N`, sets `A[k] = x[k]·chirp[k]` for `k < N`
and zero up to the convolution length `M = nextPowerOfTwo(2N-1)`, and sets
`B[k] = conj(chirp[k])` for `k < N`, `B[M-k] = conj(B[k])` for `1 ≤ k < N`,
and zero elsewhere; and `M ≥ 2N-1` always holds. -/
theorem c2_bluestein_setup (N : ℕ) (hN : 0 < N) (x : ℕ → ℂ) :
    (∀ k, k < N →
      chirpSeq N k = Complex.exp ((((-(Real.pi * (k : ℝ) ^ 2 / N)) : ℝ) : ℂ) * Complex.I)) ∧
    (∀ k, k < N → Aseq x N k = x k * chirpSeq N k) ∧
    (∀ k, N ≤ k → Aseq x N k = 0) ∧
    (∀ k, k < N → Bseq N (convLen N) k = conjC (chirpSeq N k)) ∧
    (∀ k, 1 ≤ k → k < N →
      Bseq N (convLen N) (convLen N - k) = conjC (Bseq N (convLen N) k)) ∧
    (∀ j, N ≤ j → ¬(convLen N - N < j ∧ j < convLen N) → Bseq N (convLen N) j = 0) ∧
    2 * N - 1 ≤ convLen N := by
  have hM : 2 * N - 1 ≤ convLen N := convLen_ge N
  refine ⟨?_, ?_, ?_, ?_, ?_, ?_, hM⟩
  · intro k _
    exact chirpSeq_eq_exp N k
  · intro k hk
    rw [Aseq, if_pos hk, cmul_eq]
  · intro k hk
    rw [Aseq, if_neg (by omega)]
  · intro k hk
    rw [Bseq_eq N _ hN hM k, if_pos hk, Bfill_eq_conj_chirp N k hk]
  · intro k hk1 hkN
    have hkM : k ≤ convLen N := by omega
    rw [Bseq_eq N _ hN hM (convLen N - k), if_neg (by omega), if_pos (by omega)]
    have hsub : convLen N - (convLen N - k) = k := by omega
    rw [hsub, Bseq_eq N _ hN hM k, if_pos hkN, Bfill_eq_conj_chirp N k hkN]
  · intro j hjN hmid
    rw [Bseq_eq N _ hN hM j, if_neg (by omega), if_neg hmid]

/-- Witness for C2 at `N = 2` with the all-ones input. -/
theorem c2_bluestein_setup_witness :
    (0 < 2) ∧ 2 * 2 - 1 ≤ convLen 2 :=
  ⟨by decide, (c2_bluestein_setup 2 (by decide) (fun _ => 1)).2.2.2.2.2.2⟩

/-! ### Magnitude spectrum of a hop window -/

theorem hopMagnitudes_getD (h j : ℕ) (w : ℕ → ℝ) (hj : j < h / 2 + 1) :
    (hopMagnitudes h w).getD j 0 =
      Real.sqrt ((dft h (fun n => (w n : ℂ)) j).re * (dft h (fun n => (w n : ℂ)) j).re +
        (dft h (fun n => (w n : ℂ)) j).im * (dft h (fun n => (w n : ℂ)) j).im) := by
  rw [hopMagnitudes, List.getD_eq_getElem?_getD, List.getElem?_map, List.getElem?_range hj]
  rfl

theorem abs_dft_le (N : ℕ) (w : ℕ → ℝ) (k : ℕ) :
    Complex.abs (dft N (fun n => (w n : ℂ)) k) ≤ ∑ n ∈ Finset.range N, |w n| := by
  rw [dft]
  refine le_trans (AbsoluteValue.sum_le Complex.abs _ _) ?_
  apply le_of_eq
  apply Finset.sum_congr rfl
  intro n _
  rw [map_mul, Complex.abs_exp_ofReal_mul_I, mul_one, Complex.abs_ofReal]

/-- C6: for every hop window of real samples, the spectral transform produces
exactly `⌊hopsize/2⌋+1` magnitudes, each equal to `sqrt(Re²+Im²)` of the
corresponding DFT bin (that is, to the complex absolute value of that bin),
each non-negative; in the exact-real embedding every magnitude is moreover a
well-defined real number bounded by `Σ|w n|`, so finite input can never
produce NaN or Inf. -/
theorem c6_spectrum_magnitudes (h : ℕ) (w : ℕ → ℝ) :
    (hopMagnitudes h w).length = h / 2 + 1 ∧
    (∀ j, j < h / 2 + 1 →
      (hopMagnitudes h w).getD j 0 =
        Real.sqrt ((dft h (fun n => (w n : ℂ)) j).re * (dft h (fun n => (w n : ℂ)) j).re +
          (dft h (fun n => (w n : ℂ)) j).im * (dft h (fun n => (w n : ℂ)) j).im) ∧
      (hopMagnitudes h w).getD j 0 = Complex.abs (dft h (fun n => (w n : ℂ)) j) ∧
      0 ≤ (hopMagnitudes h w).getD j 0 ∧
      (hopMagnitudes h w).getD j 0 ≤ ∑ n ∈ Finset.range h, |w n|) := by
  constructor
  · simp [hopMagnitudes]
  · intro j hj
    have h1 := hopMagnitudes_getD h j w hj
    have h2 : (hopMagnitudes h w).getD j 0 = Complex.abs (dft h (fun n => (w n : ℂ)) j) := by
      rw [h1, getLength_abs]
    refine ⟨h1, h2, ?_, ?_⟩
    · rw [h1]
      exact Real.sqrt_nonneg _
    · rw [h2]
      exact abs_dft_le h w j

/-- Witness for C6 at `h = 2` with the all-ones window, bin 0. -/
theorem c6_spectrum_magnitudes_witness :
    (0 < 2 / 2 + 1) ∧ 0 ≤ (hopMagnitudes 2 (fun _ => 1)).getD 0 0 :=
  ⟨by decide, ((c6_spectrum_magnitudes 2 (fun _ => 1)).2 0 (by decide)).2.2.1⟩

/-! ### Short inputs: the hop loop body never runs -/

/-- C10: for every decoded input whose mono sample count `numSamples / 2` is
smaller than the hop size, the hop loop executes zero iterations — there are
no hop starts, and no entry of the frequency array is ever written — while
`main` still prints the extracted-count, duration and elapsed-time lines and
returns exit code 0. -/
theorem c10_short_input (numSamples rate channels h : ℕ) (samples : ℕ → ℝ) (elapsed : ℚ)
    (hshort : numSamples / 2 < h) :
    (mainAfterDecode numSamples rate channels h samples elapsed).hops = [] ∧
    (∀ idx, (mainAfterDecode numSamples rate channels h samples elapsed).freq idx = none) ∧
    (mainAfterDecode numSamples rate channels h samples elapsed).events =
      [OutEvent.extractedCount numSamples,
        OutEvent.durationSecs ((numSamples : ℚ) / channels / rate),
        OutEvent.loopSecs elapsed] ∧
    (mainAfterDecode numSamples rate channels h samples elapsed).exitCode = 0 := by
  have hp : 0 < h := by omega
  have hempty : hopStarts (numSamples / 2) h = [] := by
    rw [hopStarts_eq _ _ hp, Nat.div_eq_of_lt hshort, List.range_zero, List.map_nil]
  have hfreq : ∀ idx, freqFinal (numSamples / 2) h (fun i => samples (i * 2)) idx = none := by
    intro idx
    rw [freqFinal, hempty, List.foldl_nil]
  exact ⟨hempty, hfreq, rfl, rfl⟩

/-- Witness for C10: a 200-sample (100 mono samples) input with the fixed
hop size 159840. -/
theorem c10_short_input_witness :
    (200 / 2 < 159840) ∧
    (mainAfterDecode 200 44100 2 159840 (fun _ => 0) 0).hops = [] ∧
    (mainAfterDecode 200 44100 2 159840 (fun _ => 0) 0).freq 0 = none ∧
    (mainAfterDecode 200 44100 2 159840 (fun _ => 0) 0).exitCode = 0 := by
  have h := c10_short_input 200 44100 2 159840 (fun _ => 0) 0 (by norm_num)
  exact ⟨by norm_num, h.1, h.2.1 0, h.2.2.2⟩


/-! ### The convolution theorem: `InverseFFT(FFT(A) ⊙ FFT(B))` is the
length-`M` circular convolution, as the spec asserts in step 4 -/

theorem eTerm_mul (M : ℕ) (c c' : ℤ) (j : ℕ) :
    eTerm M c j * eTerm M c' j = eTerm M (c + c') j := by
  rw [eTerm, eTerm, eTerm, ← Complex.exp_add]
  congr 1
  push_cast
  ring

theorem eTerm_pow (M : ℕ) (c : ℤ) (j : ℕ) :
    eTerm M c j = Complex.exp (((2 * Real.pi * c / M : ℝ) : ℂ) * Complex.I) ^ j := by
  rw [← Complex.exp_nat_mul, eTerm]
  congr 1
  push_cast
  ring

theorem sum_eTerm (M : ℕ) (hM : 0 < M) (c : ℤ) :
    ∑ j ∈ Finset.range M, eTerm M c j = if (M : ℤ) ∣ c then (M : ℂ) else 0 := by
  have hM0 : (M : ℝ) ≠ 0 := Nat.cast_ne_zero.mpr hM.ne'
  have hMC : (M : ℂ) ≠ 0 := Nat.cast_ne_zero.mpr hM.ne'
  by_cases hdvd : (M : ℤ) ∣ c
  · rw [if_pos hdvd]
    obtain ⟨s, rfl⟩ := hdvd
    have hone : ∀ j ∈ Finset.range M, eTerm M ((M : ℤ) * s) j = 1 := by
      intro j _
      rw [eTerm]
      have harg : ((2 * Real.pi * (((M : ℤ) * s : ℤ) : ℝ) * j / M : ℝ) : ℂ) * Complex.I =
          ((s * j : ℤ) : ℂ) * (2 * Real.pi * Complex.I) := by
        push_cast
        field_simp
        ring
      rw [harg, Complex.exp_int_mul_two_pi_mul_I]
    rw [Finset.sum_congr rfl hone]
    simp
  · rw [if_neg hdvd]
    set z : ℂ := Complex.exp (((2 * Real.pi * c / M : ℝ) : ℂ) * Complex.I) with hz
    have hzj : ∀ j ∈ Finset.range M, eTerm M c j = z ^ j := fun j _ => eTerm_pow M c j
    have hpi : (2 * Real.pi) ≠ 0 := by positivity
    have hz1 : z ≠ 1 := by
      intro h1
      rw [hz, Complex.exp_eq_one_iff] at h1
      obtain ⟨n, hn⟩ := h1
      rw [show ((n : ℂ) * (2 * (Real.pi : ℂ) * Complex.I)) =
        ((n * (2 * Real.pi) : ℝ) : ℂ) * Complex.I by push_cast; ring] at hn
      have hre : (2 * Real.pi * c / M : ℝ) = n * (2 * Real.pi) :=
        Complex.ofReal_inj.mp (mul_right_cancel₀ Complex.I_ne_zero hn)
      have h6 : (2 * Real.pi) * (c : ℝ) = (2 * Real.pi) * ((n : ℝ) * (M : ℝ)) := by
        calc (2 * Real.pi) * (c : ℝ) = (2 * Real.pi * c / M) * M := by field_simp
          _ = (n * (2 * Real.pi)) * M := by rw [hre]
          _ = (2 * Real.pi) * ((n : ℝ) * M) := by ring
      have hc : (c : ℝ) = (n : ℝ) * (M : ℝ) := mul_left_cancel₀ hpi h6
      have hcz : c = n * (M : ℤ) := by exact_mod_cast hc
      exact hdvd ⟨n, by rw [hcz]; ring⟩
    have hzM : z ^ M = 1 := by
      rw [hz, ← Complex.exp_nat_mul]
      rw [show ((M : ℂ) * ((((2 * Real.pi * c / M : ℝ)) : ℂ) * Complex.I)) =
        ((c : ℤ) : ℂ) * (2 * (Real.pi : ℂ) * Complex.I) by push_cast; field_simp; ring]
      exact Complex.exp_int_mul_two_pi_mul_I c
    rw [Finset.sum_congr rfl hzj, geom_sum_eq hz1, hzM]
    simp

theorem dft_eq_eTerm (M : ℕ) (A : ℕ → ℂ) (j : ℕ) :
    dft M A j = ∑ a ∈ Finset.range M, A a * eTerm M (-(a : ℤ)) j := by
  apply Finset.sum_congr rfl
  intro a _
  congr 1
  rw [eTerm]
  congr 2
  push_cast
  ring

theorem idft_eq_eTerm (M : ℕ) (v : ℕ → ℂ) (k : ℕ) :
    idft M v k = (M : ℂ)⁻¹ * ∑ j ∈ Finset.range M, v j * eTerm M (k : ℤ) j := by
  rw [idft]
  congr 1
  apply Finset.sum_congr rfl
  intro j _
  congr 1
  rw [eTerm]
  congr 2
  push_cast
  ring

theorem idft_dft_mul (M : ℕ) (hM : 0 < M) (A B : ℕ → ℂ) (k : ℕ) :
    idft M (fun j => dft M A j * dft M B j) k = circConv M A B k := by
  have hMC : (M : ℂ) ≠ 0 := Nat.cast_ne_zero.mpr hM.ne'
  have hMZ : (M : ℤ) ≠ 0 := Int.natCast_ne_zero.mpr hM.ne'
  have hMZpos : (0 : ℤ) < M := Int.natCast_pos.mpr hM
  rw [idft_eq_eTerm]
  have hterm : ∀ j ∈ Finset.range M,
      (fun j => dft M A j * dft M B j) j * eTerm M (k : ℤ) j =
        ∑ a ∈ Finset.range M, ∑ b ∈ Finset.range M,
          A a * B b * eTerm M ((k : ℤ) - a - b) j := by
    intro j _
    show (dft M A j * dft M B j) * eTerm M (k : ℤ) j = _
    rw [dft_eq_eTerm M A j, dft_eq_eTerm M B j, Finset.sum_mul_sum, Finset.sum_mul]
    apply Finset.sum_congr rfl
    intro a _
    rw [Finset.sum_mul]
    apply Finset.sum_congr rfl
    intro b _
    calc A a * eTerm M (-(a : ℤ)) j * (B b * eTerm M (-(b : ℤ)) j) * eTerm M (k : ℤ) j
        = A a * B b * (eTerm M (-(a : ℤ)) j * eTerm M (-(b : ℤ)) j * eTerm M (k : ℤ) j) := by
          ring
      _ = A a * B b * eTerm M ((k : ℤ) - a - b) j := by
          rw [eTerm_mul, eTerm_mul]
          have harg : (-(a : ℤ) + -(b : ℤ) + (k : ℤ)) = ((k : ℤ) - a - b) := by ring
          rw [harg]
  rw [Finset.sum_congr rfl hterm, Finset.sum_comm]
  have hswap : ∀ a ∈ Finset.range M,
      (∑ j ∈ Finset.range M, ∑ b ∈ Finset.range M, A a * B b * eTerm M ((k : ℤ) - a - b) j) =
        ∑ b ∈ Finset.range M, A a * B b *
          (if (M : ℤ) ∣ ((k : ℤ) - a - b) then (M : ℂ) else 0) := by
    intro a _
    rw [Finset.sum_comm]
    apply Finset.sum_congr rfl
    intro b _
    rw [← Finset.mul_sum, sum_eTerm M hM ((k : ℤ) - a - b)]
  rw [Finset.sum_congr rfl hswap]
  have hsingle : ∀ a ∈ Finset.range M,
      (∑ b ∈ Finset.range M, A a * B b *
          (if (M : ℤ) ∣ ((k : ℤ) - a - b) then (M : ℂ) else 0)) =
        A a * B (((k : ℤ) - (a : ℤ)) % (M : ℤ)).toNat * M := by
    intro a _
    set b₀ : ℕ := (((k : ℤ) - (a : ℤ)) % (M : ℤ)).toNat with hb₀
    have hmodnn : 0 ≤ ((k : ℤ) - (a : ℤ)) % (M : ℤ) := Int.emod_nonneg _ hMZ
    have hmodlt : ((k : ℤ) - (a : ℤ)) % (M : ℤ) < M := Int.emod_lt_of_pos _ hMZpos
    have hb₀mem : b₀ ∈ Finset.range M := by
      rw [Finset.mem_range]
      omega
    rw [Finset.sum_eq_single b₀]
    · have hdvd : (M : ℤ) ∣ ((k : ℤ) - a - b₀) := by
        have hcast : (b₀ : ℤ) = ((k : ℤ) - (a : ℤ)) % (M : ℤ) := by omega
        rw [hcast]
        exact Int.dvd_sub_of_emod_eq rfl
      rw [if_pos hdvd]
    · intro b hb hne
      by_cases hdvd : (M : ℤ) ∣ ((k : ℤ) - a - b)
      · exfalso
        apply hne
        rw [Finset.mem_range] at hb
        obtain ⟨t, ht⟩ := hdvd
        have hfin : ((k : ℤ) - (a : ℤ)) % (M : ℤ) = b := by
          have hbeq : ((k : ℤ) - (a : ℤ)) = (M : ℤ) * t + b := by omega
          rw [hbeq, add_comm, Int.add_mul_emod_self_left]
          exact Int.emod_eq_of_lt (by omega) (by omega)
        omega
      · rw [if_neg hdvd, mul_zero]
    · intro habs
      exact absurd hb₀mem habs
  rw [Finset.sum_congr rfl hsingle, Finset.mul_sum, circConv]
  apply Finset.sum_congr rfl
  intro a _
  field_simp

/-! ### Concrete evaluation of the spec-completed Bluestein path at `N = 2` -/

theorem convLen_two : convLen 2 = 4 := by
  have h1 : Nat.clog 2 3 ≤ 2 := (Nat.le_pow_iff_clog_le one_lt_two).mp (by norm_num)
  have h2 : 1 < Nat.clog 2 3 := (Nat.pow_lt_iff_lt_clog one_lt_two).mp (by norm_num)
  have h3 : Nat.clog 2 3 = 2 := by omega
  rw [convLen, nextPowerOfTwo]
  norm_num [h3]

theorem chirpSeq_two_zero : chirpSeq 2 0 = ⟨1, 0⟩ := by
  apply Complex.ext <;> simp [chirpSeq, fromAngle]

theorem chirpSeq_two_one : chirpSeq 2 1 = ⟨0, -1⟩ := by
  have hangle : (-(Real.pi * ((1 : ℕ) : ℝ) * ((1 : ℕ) : ℝ))) / ((2 : ℕ) : ℝ) =
      -(Real.pi / 2) := by
    push_cast
    ring
  apply Complex.ext <;>
    simp [chirpSeq, fromAngle, hangle, neg_div, Real.cos_pi_div_two, Real.sin_pi_div_two]

theorem Bfill_two_zero : Bfill 2 0 = ⟨1, 0⟩ := by
  apply Complex.ext <;> simp [Bfill, fromAngle]

theorem Bfill_two_one : Bfill 2 1 = ⟨0, 1⟩ := by
  have hangle : (Real.pi * ((1 : ℕ) : ℝ) * ((1 : ℕ) : ℝ)) / ((2 : ℕ) : ℝ) = Real.pi / 2 := by
    push_cast
    ring
  apply Complex.ext <;> simp [Bfill, fromAngle, hangle]

theorem Bseq_two_four_vals :
    Bseq 2 4 0 = ⟨1, 0⟩ ∧ Bseq 2 4 1 = ⟨0, 1⟩ ∧ Bseq 2 4 2 = 0 ∧ Bseq 2 4 3 = ⟨0, -1⟩ := by
  have hN : (0 : ℕ) < 2 := by norm_num
  have hM : 2 * 2 - 1 ≤ 4 := by norm_num
  refine ⟨?_, ?_, ?_, ?_⟩
  · rw [Bseq_eq 2 4 hN hM 0, if_pos (by norm_num), Bfill_two_zero]
  · rw [Bseq_eq 2 4 hN hM 1, if_pos (by norm_num), Bfill_two_one]
  · rw [Bseq_eq 2 4 hN hM 2, if_neg (by norm_num), if_neg (by norm_num)]
  · rw [Bseq_eq 2 4 hN hM 3, if_neg (by norm_num), if_pos (by norm_num)]
    rw [show (4 : ℕ) - 3 = 1 from rfl, Bfill_two_one]
    apply Complex.ext <;> simp [conjC]

theorem Aseq_ones_two_vals :
    Aseq (fun _ => 1) 2 0 = ⟨1, 0⟩ ∧ Aseq (fun _ => 1) 2 1 = ⟨0, -1⟩ ∧
      Aseq (fun _ => 1) 2 2 = 0 ∧ Aseq (fun _ => 1) 2 3 = 0 := by
  refine ⟨?_, ?_, ?_, ?_⟩
  · rw [Aseq, if_pos (by norm_num), chirpSeq_two_zero]
    apply Complex.ext <;> simp [cmul]
  · rw [Aseq, if_pos (by norm_num), chirpSeq_two_one]
    apply Complex.ext <;> simp [cmul]
  · rw [Aseq, if_neg (by norm_num)]
  · rw [Aseq, if_neg (by norm_num)]

theorem circConv_bluestein_two_zero :
    circConv 4 (Aseq (fun _ => 1) 2) (Bseq 2 4) 0 = 0 := by
  obtain ⟨hA0, hA1, hA2, hA3⟩ := Aseq_ones_two_vals
  obtain ⟨hB0, hB1, hB2, hB3⟩ := Bseq_two_four_vals
  rw [circConv]
  rw [show ((4 : ℕ) : ℤ) = 4 from rfl]
  simp only [Finset.sum_range_succ, Finset.sum_range_zero]
  rw [show ((((0 : ℕ) : ℤ) - ((0 : ℕ) : ℤ)) % (4 : ℤ)).toNat = 0 by decide]
  rw [show ((((0 : ℕ) : ℤ) - ((1 : ℕ) : ℤ)) % (4 : ℤ)).toNat = 3 by decide]
  rw [show ((((0 : ℕ) : ℤ) - ((2 : ℕ) : ℤ)) % (4 : ℤ)).toNat = 2 by decide]
  rw [show ((((0 : ℕ) : ℤ) - ((3 : ℕ) : ℤ)) % (4 : ℤ)).toNat = 1 by decide]
  rw [hA0, hA1, hA2, hA3, hB0, hB1, hB2, hB3]
  apply Complex.ext <;> simp [Complex.mul_re, Complex.mul_im]

theorem bluesteinMag_two_zero : bluesteinMag 2 (fun _ => 1) 0 = 0 := by
  have hconv : convSeq 2 (fun _ => 1) 0 = 0 := by
    rw [convSeq, convLen_two, idft_dft_mul 4 (by norm_num), circConv_bluestein_two_zero]
  rw [bluesteinMag, bluesteinX, hconv]
  have hX : cmul 0 (chirpSeq 2 0) = 0 := by
    apply Complex.ext <;> simp [cmul]
  rw [hX, getLength]
  simp

theorem dftMag_two_zero : dftMag 2 (fun _ => 1) 0 = 2 := by
  have hdft : dft 2 (fun _ => 1) 0 = 2 := by
    rw [dft]
    simp [Finset.sum_range_succ]
  rw [dftMag, hdft, getLength]
  norm_num
  rw [show (4 : ℝ) = 2 ^ 2 by norm_num, Real.sqrt_sq (by norm_num)]

/-- C7 (evaluating the code at the failing input): at the power-of-two length
`N = 2` with the window `x = [1, 1]`, the power-of-two path produces magnitude
2 at bin 0, while the Bluestein path — the source's setup (chirp, `A`, `B`
with its conjugated mirror) completed by the spec's own steps 4 and 5 —
produces magnitude 0 at bin 0, so the two paths do not agree within relative
error `1e-9` (the source's `bluesteinFFT` itself never even reaches a result:
it stops after filling `A` and `B` and returns no value). -/
theorem c7_bluestein_path_diverges :
    bluesteinMag 2 (fun _ => 1) 0 = 0 ∧
    dftMag 2 (fun _ => 1) 0 = 2 ∧
    ¬(|bluesteinMag 2 (fun _ => 1) 0 - dftMag 2 (fun _ => 1) 0| <
        1e-9 * dftMag 2 (fun _ => 1) 0) := by
  refine ⟨bluesteinMag_two_zero, dftMag_two_zero, ?_⟩
  rw [bluesteinMag_two_zero, dftMag_two_zero]
  norm_num



/-! ### The stored chirp phase is single-precision, not double -/

/-- C8 (evaluating the code at the failing input): at `bufflen = 3`, `k = 1`,
the value stored in the C `float phase` variable of line 51 differs from the
double-precision value of the same phase expression — so the phase math of
the spectral engine is not all carried out in double precision: line 51
declares `phase` as `float`, and `fromAngle` (line 38) takes its amplitude
and angle as `float` as well. -/
theorem c8_phase_not_double_precision :
    pairVal (phaseAbsFloat 3 1) ≠ pairVal (phaseAbsDouble 3 1) := by
  have hne : (phaseAbsFloat 3 1).1 * (phaseAbsDouble 3 1).2 ≠
      (phaseAbsDouble 3 1).1 * (phaseAbsFloat 3 1).2 := by decide
  have hd1 : ((phaseAbsFloat 3 1).2 : ℚ) ≠ 0 :=
    Nat.cast_ne_zero.mpr (by decide)
  have hd2 : ((phaseAbsDouble 3 1).2 : ℚ) ≠ 0 :=
    Nat.cast_ne_zero.mpr (by decide)
  intro heq
  rw [pairVal, pairVal, div_eq_div_iff hd1 hd2] at heq
  exact hne (by exact_mod_cast heq)


end Haching
